import Mathlib

/-!
Verification development for the `AnimeTrie` multi-field prefix-search index
of `localotaku_tgbot` (`src/localotaku_tgbot/utils/trie.py`, records from
`src/localotaku_tgbot/entites/core.py`).

Strings are modelled as `List Char`.  The Unicode tables used by
`unicodedata.normalize("NFKD", ·)` / `unicodedata.combining` / `str.lower`
are modelled by total functions that are faithful on the characters
exercised in this development (ASCII plus the accented characters used by
the specification's examples) and are the identity elsewhere; the regular
expression character classes `\w` and `\s` are modelled on their ASCII
fragment.  Everything else is a direct translation of the Python source.
-/

/-- The `\s` class (and `str.strip` / `str.isspace`), ASCII fragment:
space, tab, newline, carriage return, vertical tab, form feed. -/
def isWsChar (c : Char) : Bool :=
  c = ' ' || c = '\t' || c = '\n' || c = '\r' || c.toNat = 11 || c.toNat = 12

/-- The `\w` class, ASCII fragment: letters, digits and underscore. -/
def isWordChar (c : Char) : Bool :=
  ('a' ≤ c && c ≤ 'z') || ('A' ≤ c && c ≤ 'Z') || ('0' ≤ c && c ≤ '9') || c = '_'

/-- A character kept by `re.sub(r"[^\w\s-]", "", ·)`:
word characters, whitespace, and the hyphen. -/
def isKeptChar (c : Char) : Bool :=
  isWordChar c || isWsChar c || c = '-'

/-- `unicodedata.normalize("NFKD", ·)` at the character level, restricted to
the accented characters exercised here (identity elsewhere).  `́` is
COMBINING ACUTE ACCENT and `̂` is COMBINING CIRCUMFLEX ACCENT. -/
def decomposeChar (c : Char) : List Char :=
  if c = 'á' then ['a', '́']
  else if c = 'ô' then ['o', '̂']
  else if c = 'Á' then ['A', '́']
  else if c = 'Ô' then ['O', '̂']
  else [c]

/-- `unicodedata.combining c != 0`, restricted to the combining marks
produced by `decomposeChar`. -/
def isCombiningChar (c : Char) : Bool :=
  c = '́' || c = '̂'

/-- The uppercase-to-lowercase table of `str.lower`, ASCII fragment. -/
def lowerTable : List (Char × Char) :=
  [('A', 'a'), ('B', 'b'), ('C', 'c'), ('D', 'd'), ('E', 'e'), ('F', 'f'), ('G', 'g'), ('H', 'h'), ('I', 'i'), ('J', 'j'), ('K', 'k'), ('L', 'l'), ('M', 'm'), ('N', 'n'), ('O', 'o'), ('P', 'p'), ('Q', 'q'), ('R', 'r'), ('S', 's'), ('T', 't'), ('U', 'u'), ('V', 'v'), ('W', 'w'), ('X', 'x'), ('Y', 'y'), ('Z', 'z')]

/-- `str.lower` at the character level, ASCII fragment (identity elsewhere). -/
def toLowerChar (c : Char) : Char :=
  match lowerTable.find? (fun p => p.1 == c) with
  | some p => p.2
  | none => c

/-- Concatenated character-level map (the string-level NFKD step). -/
def concatMapChar (f : Char → List Char) : List Char → List Char
  | [] => []
  | c :: r => f c ++ concatMapChar f r

/-- Drop a maximal whitespace suffix (the right half of `str.strip`). -/
def rdropWs : List Char → List Char
  | [] => []
  | c :: r =>
    let r' := rdropWs r
    if r' = [] && isWsChar c then [] else c :: r'

/-- `str.strip`: drop maximal whitespace runs at both ends. -/
def stripWs (l : List Char) : List Char :=
  rdropWs (l.dropWhile isWsChar)

/-- `re.sub(r"\s+", " ", ·)`: replace every maximal whitespace run by a
single space.  The flag records whether the previous character was part of
a whitespace run. -/
def collapseGo : Bool → List Char → List Char
  | _, [] => []
  | prevWs, c :: r =>
    if isWsChar c then
      if prevWs then collapseGo true r else ' ' :: collapseGo true r
    else c :: collapseGo false r

/-- `re.sub(r"\s+", " ", ·)` on a whole string. -/
def collapseWs (l : List Char) : List Char :=
  collapseGo false l

/-- `AnimeTrie._normalize_text`, line by line:
`unicodedata.normalize("NFKD", text)`;
`"".join(c for c in normalized if not unicodedata.combining(c))`;
`normalized.lower().strip()`;
`re.sub(r"[^\w\s-]", "", normalized)`;
`re.sub(r"\s+", " ", normalized)`. -/
def normalizeText (text : List Char) : List Char :=
  let d1 := concatMapChar decomposeChar text
  let d2 := d1.filter (fun c => !isCombiningChar c)
  let d3 := stripWs (d2.map toLowerChar)
  let d4 := d3.filter isKeptChar
  collapseWs d4

/-- `Genre` from `entites/core.py`. -/
structure Genre where
  id : Int
  name : List Char
deriving DecidableEq

/-- `OriginalMangaAuthor` from `entites/core.py`. -/
structure OriginalMangaAuthor where
  id : Int
  name : List Char
deriving DecidableEq

/-- `AnimeStudio` from `entites/core.py`. -/
structure AnimeStudio where
  id : Int
  name : List Char
deriving DecidableEq

/-- `Anime` from `entites/core.py`.  `float | None` is modelled as
`Option Float`; claims never inspect it. -/
structure Anime where
  id : Nat
  title : List Char
  title_english : Option (List Char)
  title_japanese : Option (List Char)
  image_url : List Char
  synopsis : Option (List Char)
  score : Option Float
  episodes : Option Nat
  seasons : Option Nat
  films : Option Nat
  status : List Char
  genres : List Genre
  studios : List AnimeStudio
  manga_authors : List OriginalMangaAuthor
  year : Option Nat
  season : Option (List Char)

/-- `Anime.display_title`: `self.title_english or self.title_japanese or
self.title` (Python `or` skips `None` and the empty string). -/
def displayTitle (a : Anime) : List Char :=
  match a.title_english with
  | some t => if t = [] then
      (match a.title_japanese with
       | some u => if u = [] then a.title else u
       | none => a.title)
    else t
  | none =>
    match a.title_japanese with
    | some u => if u = [] then a.title else u
    | none => a.title

/-- A Python `set` of identifiers, modelled as a duplicate-free list
(membership is what matters; iteration order of a Python `set` is
unspecified and every consumer in the source either sorts or
order-insensitively collects). -/
def setInsert (i : Nat) (l : List Nat) : List Nat :=
  if i ∈ l then l else i :: l

/-- Set intersection, `a.intersection(b)`. -/
def setInter (a b : List Nat) : List Nat :=
  a.filter (fun i => decide (i ∈ b))

/-- A trie node: `children` (an insertion-ordered character-to-child map,
modelling the Python `dict`), `is_end_of_word`, and the identifier set
`anime_ids`. -/
inductive TrieNode : Type where
  | mk (children : List (Char × TrieNode)) (isEndOfWord : Bool) (animeIds : List Nat)

/-- The `children` field. -/
def TrieNode.children : TrieNode → List (Char × TrieNode)
  | .mk c _ _ => c

/-- The `is_end_of_word` field. -/
def TrieNode.isEndOfWord : TrieNode → Bool
  | .mk _ e _ => e

/-- The `anime_ids` field. -/
def TrieNode.animeIds : TrieNode → List Nat
  | .mk _ _ s => s

/-- `TrieNode.__init__`: no children, not terminal, empty identifier set. -/
def emptyNode : TrieNode := .mk [] false []

/-- `node.children[char]` read access on the insertion-ordered map. -/
def findChild : List (Char × TrieNode) → Char → Option TrieNode
  | [], _ => none
  | (k, m) :: r, c => if k = c then some m else findChild r c

/-- `node.children[char] = v`: overwrite in place if the key exists,
append otherwise (Python `dict` assignment). -/
def setChild : List (Char × TrieNode) → Char → TrieNode → List (Char × TrieNode)
  | [], c, v => [(c, v)]
  | (k, m) :: r, c, v => if k = c then (c, v) :: r else (k, m) :: setChild r c v

/-- The loop of `_add_to_trie` over an already-normalized key: descend into
(creating if needed) the child for each character, adding `animeId` to each
visited child's set; at the end of the key mark `is_end_of_word` and add
`animeId` once more. -/
def addGo (animeId : Nat) : List Char → TrieNode → TrieNode
  | [], n => .mk n.children true (setInsert animeId n.animeIds)
  | c :: rest, n =>
    let child := (findChild n.children c).getD emptyNode
    let child := TrieNode.mk child.children child.isEndOfWord (setInsert animeId child.animeIds)
    .mk (setChild n.children c (addGo animeId rest child)) n.isEndOfWord n.animeIds

/-- `AnimeTrie._add_to_trie`: normalize the text, then walk/extend. -/
def addToTrie (trieRoot : TrieNode) (text : List Char) (animeId : Nat) : TrieNode :=
  addGo animeId (normalizeText text) trieRoot

/-- The loop of `_search_in_trie` over an already-normalized key: walk
existing children only; empty set on the first missing character; the
identifier set of the node reached otherwise. -/
def searchGo : List Char → TrieNode → List Nat
  | [], n => n.animeIds
  | c :: rest, n =>
    match findChild n.children c with
    | none => []
    | some child => searchGo rest child

/-- `AnimeTrie._search_in_trie`: normalize the query, then walk. -/
def searchInTrie (trieRoot : TrieNode) (pre : List Char) : List Nat :=
  searchGo (normalizeText pre) trieRoot

/-- The record table `_anime_by_id`, modelled as an insertion-ordered
association list with unique keys (a Python `dict`). -/
def AnimeTable : Type := List (Nat × Anime)

/-- The key view of the table (`dict` keys, in insertion order). -/
def tableKeys (tbl : List (Nat × Anime)) : List Nat := tbl.map Prod.fst

/-- `self._anime_by_id[anime_id]` read access; `none` models a `KeyError`. -/
def lookupTable : List (Nat × Anime) → Nat → Option Anime
  | [], _ => none
  | (k, a) :: r, i => if k = i then some a else lookupTable r i

/-- `[self._anime_by_id[anime_id] for anime_id in ids]`: materialize records
for a list of identifiers; `none` models the `KeyError` raised when some
identifier is absent from the table. -/
def lookupAll (tbl : List (Nat × Anime)) : List Nat → Option (List Anime)
  | [] => some []
  | i :: r =>
    match lookupTable tbl i with
    | none => none
    | some a =>
      match lookupAll tbl r with
      | none => none
      | some l => some (a :: l)

/-- `sorted(anime_ids)`: ascending list of the identifier set. -/
def sortedIdList (s : List Nat) : List Nat :=
  List.insertionSort (· ≤ ·) s

/-- The `AnimeTrie` state: `_root`, `_anime_by_id`, `_genre_trie`,
`_studio_trie`. -/
structure AnimeTrie where
  root : TrieNode
  animeById : List (Nat × Anime)
  genreTrie : TrieNode
  studioTrie : TrieNode

/-- `AnimeTrie.__init__`. -/
def emptyAnimeTrie : AnimeTrie := ⟨emptyNode, [], emptyNode, emptyNode⟩

/-- The de-duplicated title collection built by `add_anime`:
`{anime.title, anime.display_title, anime.title_english or "",
anime.title_japanese or ""}` (a Python `set` of strings, modelled as a
de-duplicated list). -/
def titlesOf (a : Anime) : List (List Char) :=
  [a.title, displayTitle a, a.title_english.getD [], a.title_japanese.getD []].dedup

/-- `AnimeTrie.add_anime`: no-op when the identifier already exists;
otherwise register the record and index every raw-nonblank title plus every
genre and studio name. -/
def addAnime (st : AnimeTrie) (a : Anime) : AnimeTrie :=
  if a.id ∈ tableKeys st.animeById then st
  else
    { root := (titlesOf a).foldl
        (fun t s => if stripWs s = [] then t else addToTrie t s a.id) st.root
      animeById := st.animeById ++ [(a.id, a)]
      genreTrie := a.genres.foldl (fun t g => addToTrie t g.name a.id) st.genreTrie
      studioTrie := a.studios.foldl (fun t s => addToTrie t s.name a.id) st.studioTrie }

/-- Python truthiness of `Optional[str]` (`None` and `""` are falsy). -/
def pyTruthyStr : Option (List Char) → Bool
  | none => false
  | some s => !s.isEmpty

/-- Python truthiness of `Optional[int]` (`None` and `0` are falsy). -/
def pyTruthyNat : Option Nat → Bool
  | none => false
  | some n => n != 0

/-- `results[:limit] if limit else results`. -/
def applyLimit (limit : Option Nat) (results : List Anime) : List Anime :=
  if pyTruthyNat limit then results.take (limit.getD 0) else results

/-- `AnimeTrie.search_by_title`: trie query, materialization in ascending
identifier order (`none` = `KeyError` on a stale identifier), truncation. -/
def searchByTitle (st : AnimeTrie) (pre : List Char) (limit : Option Nat) :
    Option (List Anime) :=
  (lookupAll st.animeById (sortedIdList (searchInTrie st.root pre))).map
    (applyLimit limit)

/-- `AnimeTrie.search_by_genre`. -/
def searchByGenre (st : AnimeTrie) (pre : List Char) : Option (List Anime) :=
  lookupAll st.animeById (sortedIdList (searchInTrie st.genreTrie pre))

/-- `AnimeTrie.search_by_studio`. -/
def searchByStudio (st : AnimeTrie) (pre : List Char) : Option (List Anime) :=
  lookupAll st.animeById (sortedIdList (searchInTrie st.studioTrie pre))

/-- The `result_ids` computation of `AnimeTrie.advanced_search`: one
single-field set per truthy field, intersected left to right; all live
identifiers when no field is truthy (`set(self._anime_by_id.keys())`). -/
def advancedIds (st : AnimeTrie) (tp gp sp : Option (List Char)) : List Nat :=
  let rid : Option (List Nat) :=
    if pyTruthyStr tp then some (searchInTrie st.root (tp.getD [])) else none
  let rid : Option (List Nat) :=
    if pyTruthyStr gp then
      let gids := searchInTrie st.genreTrie (gp.getD [])
      some (match rid with | none => gids | some r => setInter r gids)
    else rid
  let rid : Option (List Nat) :=
    if pyTruthyStr sp then
      let sids := searchInTrie st.studioTrie (sp.getD [])
      some (match rid with | none => sids | some r => setInter r sids)
    else rid
  match rid with
  | none => tableKeys st.animeById
  | some r => r

/-- `AnimeTrie.advanced_search`: intersect per-field identifier sets,
materialize in ascending identifier order (with no record-table filtering;
`none` = `KeyError` on a stale identifier), truncate. -/
def advancedSearch (st : AnimeTrie) (tp gp sp : Option (List Char))
    (limit : Option Nat) : Option (List Anime) :=
  (lookupAll st.animeById (sortedIdList (advancedIds st tp gp sp))).map
    (applyLimit limit)

/-- Python string `<=` (lexicographic by code point). -/
def lexLe : List Char → List Char → Bool
  | [], _ => true
  | _ :: _, [] => false
  | a :: as, b :: bs => if a = b then lexLe as bs else decide (a < b)

/-- `AnimeTrie.get_all_anime`: every record, sorted by lowercased display
title. -/
def getAllAnime (st : AnimeTrie) : List Anime :=
  List.insertionSort
    (fun a b => lexLe ((displayTitle a).map toLowerChar) ((displayTitle b).map toLowerChar))
    (st.animeById.map Prod.snd)

/-- `AnimeTrie.remove_anime`: `False` if unknown, otherwise delete the
record from `_anime_by_id` only (the tries are left untouched) and return
`True`. -/
def removeAnime (st : AnimeTrie) (animeId : Nat) : Bool × AnimeTrie :=
  if animeId ∈ tableKeys st.animeById then
    (true, { st with animeById := st.animeById.filter (fun p => p.1 ≠ animeId) })
  else (false, st)

/-- `AnimeTrie.clear`. -/
def clearAnimeTrie (_st : AnimeTrie) : AnimeTrie := emptyAnimeTrie

/-- `AnimeTrie.total_anime`. -/
def totalAnime (st : AnimeTrie) : Nat := st.animeById.length

/-- The walk at the start of `get_suggestions`: follow the normalized
query through existing children, `none` when a character is missing. -/
def walkNode : List Char → TrieNode → Option TrieNode
  | [], n => some n
  | c :: rest, n =>
    match findChild n.children c with
    | none => none
    | some child => walkNode rest child

/-- `suggestions.add(s)` on the accumulated Python `set` of strings. -/
def strInsert (s : List Char) (l : List (List Char)) : List (List Char) :=
  if s ∈ l then l else s :: l

/-- The inner loop of `get_suggestions` over a terminal node's identifier
set (iterated in ascending order — a Python `set` iterates in unspecified
order): keep identifiers still present in `_anime_by_id`, accumulate their
display titles, and break once `max_suggestions` distinct titles are
collected. -/
def collectTitles (tbl : List (Nat × Anime)) (maxS : Nat) :
    List Nat → List (List Char) → List (List Char)
  | [], acc => acc
  | i :: rest, acc =>
    match lookupTable tbl i with
    | none => collectTitles tbl maxS rest acc
    | some a =>
      let acc' := strInsert (displayTitle a) acc
      if maxS ≤ acc'.length then acc' else collectTitles tbl maxS rest acc'

/-- The `while stack and len(suggestions) < max_suggestions` loop of
`get_suggestions`: pop a node, collect display titles when it is terminal,
push its children (the Python code appends them in `dict` order and pops
from the end, so the reversed child list goes on top). -/
def suggestLoop (tbl : List (Nat × Anime)) (maxS : Nat) :
    List (TrieNode × List Char) → List (List Char) → List (List Char)
  | [], acc => acc
  | (n, w) :: stack, acc =>
    if maxS ≤ acc.length then acc
    else
      let acc' := if n.isEndOfWord then collectTitles tbl maxS (sortedIdList n.animeIds) acc
        else acc
      suggestLoop tbl maxS (n.children.reverse.map (fun p => (p.2, w ++ [p.1])) ++ stack) acc'
termination_by stack _ => (stack.map (fun p => sizeOf p.1)).sum
decreasing_by
  simp only [List.map_append, List.sum_append, List.map_cons, List.sum_cons,
    List.map_reverse, List.map_map, List.sum_reverse]
  have h : ∀ cs : List (Char × TrieNode),
      ((cs.map ((fun p => sizeOf p.1) ∘ (fun p => ((p.2 : TrieNode), w ++ [p.1])))).sum) <
        sizeOf cs := by
    intro cs
    induction cs with
    | nil => simp
    | cons p r ih =>
      cases p with
      | mk c m =>
        simp only [List.map_cons, List.sum_cons, Function.comp]
        simp only [List.cons.sizeOf_spec]
        have : sizeOf ((c, m) : Char × TrieNode) = 1 + sizeOf c + sizeOf m := rfl
        omega
  have h2 := h n.children
  have h3 : sizeOf n.children < sizeOf n := by
    cases n with
    | mk c e i =>
      simp only [TrieNode.children, TrieNode.mk.sizeOf_spec]
      omega
  omega

/-- `sorted(list(suggestions))`: lexicographic sort of the collected
display titles. -/
def sortStrings (l : List (List Char)) : List (List Char) :=
  List.insertionSort (fun a b => lexLe a b) l

/-- `AnimeTrie.get_suggestions`. -/
def getSuggestions (st : AnimeTrie) (pre : List Char) (maxSuggestions : Nat) :
    List (List Char) :=
  let np := normalizeText pre
  match walkNode np st.root with
  | none => []
  | some node => sortStrings (suggestLoop st.animeById maxSuggestions [(node, np)] [])

/-- `animeId` occurs in no identifier set anywhere in the (sub)trie. -/
def idFree (animeId : Nat) (n : TrieNode) : Bool :=
  decide (animeId ∉ n.animeIds) && n.children.attach.all (fun p => idFree animeId p.1.2)
termination_by sizeOf n
decreasing_by
  have hmem : p.1 ∈ n.children := p.2
  have h1 : sizeOf p.1 < sizeOf n.children := List.sizeOf_lt_of_mem hmem
  have h2 : sizeOf p.1.2 < sizeOf p.1 := by
    cases p.1 with
    | mk c m => simp [Prod.mk.sizeOf_spec]
  have h3 : sizeOf n.children < sizeOf n := by
    cases n with
    | mk c e i =>
      simp only [TrieNode.children, TrieNode.mk.sizeOf_spec]
      omega
  omega

/-- A convenient record constructor: identifier and primary title given,
every other field empty/absent. -/
def mkAnime (i : Nat) (t : List Char) : Anime :=
  { id := i, title := t, title_english := none, title_japanese := none,
    image_url := [], synopsis := none, score := none, episodes := none,
    seasons := none, films := none, status := [], genres := [],
    studios := [], manga_authors := [], year := none, season := none }

/-- The record used by the removal counterexamples: id 1, title "a". -/
def animeA : Anime := mkAnime 1 ['a']

/-- The index holding exactly `animeA`. -/
def stAdded : AnimeTrie := addAnime emptyAnimeTrie animeA

/-- The index after `remove_anime(1)` on `stAdded`. -/
def stRemoved : AnimeTrie := (removeAnime stAdded 1).2

/-- The record used by the C4 witness: id 1, title "a", genre "g",
studio "s". -/
def animeFull : Anime :=
  { mkAnime 1 ['a'] with genres := [⟨1, ['g']⟩], studios := [⟨1, ['s']⟩] }

/-- The index holding exactly `animeFull`. -/
def stFull : AnimeTrie := addAnime emptyAnimeTrie animeFull

/-- The record used by the C5 witness: id 7, whitespace-only title. -/
def animeBlank : Anime := mkAnime 7 [' ']

/-- Whitespace-normal strings relative to an incoming run flag: every
whitespace character is a plain space and no space follows a whitespace
position.  `collapseGo` produces exactly such strings and fixes them. -/
def wsNormal : Bool → List Char → Bool
  | _, [] => true
  | prevWs, c :: r =>
    if isWsChar c then (c = ' ' && !prevWs && wsNormal true r) else wsNormal false r

/-- The normalization pipeline in the order written in the specification:
decompose, discard combining marks, lowercase, discard characters outside
word/whitespace/hyphen, collapse whitespace runs, and trim leading/trailing
whitespace last. -/
def specNormalizeC7 (text : List Char) : List Char :=
  let d1 := concatMapChar decomposeChar text
  let d2 := d1.filter (fun c => !isCombiningChar c)
  let d3 := d2.map toLowerChar
  let d4 := d3.filter isKeptChar
  stripWs (collapseWs d4)

/-- Below-root hierarchy invariant of a subtrie: every child's identifier
set is contained in its parent's, recursively.  `_add_to_trie` maintains
this for every node strictly below a trie root because it adds the
identifier to every visited node. -/
inductive SubHier : TrieNode → Prop where
  | mk (n : TrieNode)
    (hsub : ∀ c m, findChild n.children c = some m → ∀ i, i ∈ m.animeIds → i ∈ n.animeIds)
    (hrec : ∀ c m, findChild n.children c = some m → SubHier m) :
    SubHier n

/-- Hierarchy invariant of a whole trie: every subtree hanging off the
root satisfies `SubHier` (the root itself carries no containment
obligation — `_add_to_trie` never adds identifiers to the root on a
non-empty key). -/
def Hier (n : TrieNode) : Prop :=
  ∀ c m, findChild n.children c = some m → SubHier m

/-- Index states reachable through the public mutators. -/
inductive Reachable : AnimeTrie → Prop where
  | empty : Reachable emptyAnimeTrie
  | add (st : AnimeTrie) (a : Anime) : Reachable st → Reachable (addAnime st a)
  | remove (st : AnimeTrie) (i : Nat) : Reachable st → Reachable (removeAnime st i).2
  | clear (st : AnimeTrie) : Reachable st → Reachable (clearAnimeTrie st)

example : normalizeText "Naruto".toList = "naruto".toList := by decide
example : normalizeText "NARUTO".toList = "naruto".toList := by decide
example : normalizeText "nárutô".toList = "naruto".toList := by decide
example : normalizeText "  a   b  ".toList = "a b".toList := by decide
example : normalizeText "a !".toList = "a ".toList := by decide
example : normalizeText "a ".toList = "a".toList := by decide
example : normalizeText "!".toList = ([] : List Char) := by decide

/-- C1.  Removal completeness fails in the code: `remove_anime` deletes
the record from `_anime_by_id` only, leaving the identifier in every trie
node it was indexed under.  After adding record 1 (title "a") and removing
it (`remove_anime` returns `True`), the title-trie query for "a" still
yields identifier 1, and `search_by_title("a")` dereferences the missing
record — a `KeyError` in Python, `none` in this model — instead of simply
not containing it.  `get_all_anime` does drop the record (the only part of
the claim the code satisfies). -/
theorem c1_removal_incompleteness :
    (removeAnime stAdded 1).1 = true ∧
    searchInTrie stRemoved.root ['a'] = [1] ∧
    searchByTitle stRemoved ['a'] none = none ∧
    getAllAnime stRemoved = [] :=
  ⟨rfl, rfl, rfl, rfl⟩

/-- C2.  Stale-reference safety fails in the code: `advanced_search` does
not filter its identifier set against `_anime_by_id` before
materialization, so immediately after a removal it dereferences a stale
identifier (`KeyError` in Python, `none` here).  The stale identifier 1 is
still produced by the `result_ids` computation even though it is absent
from the record table. -/
theorem c2_stale_reference_unsafety :
    advancedIds stRemoved (some ['a']) none none = [1] ∧
    tableKeys stRemoved.animeById = [] ∧
    advancedSearch stRemoved (some ['a']) none none none = none :=
  ⟨rfl, rfl, rfl⟩

/-- C3.  The trie path-set invariant is violated in reachable states: after
add-then-remove of record 1 (title "a"), the node at path "a" still stores
identifier set {1}, yet no live record has any indexed key — the record
table is empty.  (The invariant cannot survive because `remove_anime`
never issues trie removals.) -/
theorem c3_invariant_broken_after_remove :
    searchInTrie stRemoved.root ['a'] = [1] ∧
    stRemoved.animeById = [] :=
  ⟨rfl, rfl⟩

/-- C9.  Re-add idempotence: `add_anime` with an identifier already in the
record table returns immediately, so the whole index state is unchanged —
hence `total_anime`, every search, every suggestion and `get_all_anime`
are those of the state after the first add, whatever titles/genres/studios
the re-added record carries. -/
theorem c9_readd_is_noop (st : AnimeTrie) (a : Anime)
    (h : a.id ∈ tableKeys st.animeById) :
    addAnime st a = st ∧
    totalAnime (addAnime st a) = totalAnime st ∧
    (∀ p lim, searchByTitle (addAnime st a) p lim = searchByTitle st p lim) ∧
    (∀ p, searchByGenre (addAnime st a) p = searchByGenre st p) ∧
    (∀ p, searchByStudio (addAnime st a) p = searchByStudio st p) ∧
    (∀ tp gp sp lim, advancedSearch (addAnime st a) tp gp sp lim =
      advancedSearch st tp gp sp lim) ∧
    (∀ p m, getSuggestions (addAnime st a) p m = getSuggestions st p m) ∧
    getAllAnime (addAnime st a) = getAllAnime st := by
  have hst : addAnime st a = st := by
    simp [addAnime, h]
  refine ⟨hst, ?_, ?_, ?_, ?_, ?_, ?_, ?_⟩ <;> simp [hst]

/-- C9 witness: re-adding id 1 with a different title ("b" instead of "a")
into the index already holding id 1 changes nothing. -/
theorem c9_readd_is_noop_witness :
    (mkAnime 1 ['b']).id ∈ tableKeys stAdded.animeById ∧
    addAnime stAdded (mkAnime 1 ['b']) = stAdded :=
  ⟨by decide, (c9_readd_is_noop stAdded (mkAnime 1 ['b']) (by decide)).1⟩

/-- C10.  A zero limit is falsy in Python (`if limit:`), so
`search_by_title` and `advanced_search` with `limit = 0` return the full
untruncated result, exactly as when no limit is passed. -/
theorem c10_zero_limit_means_no_limit (st : AnimeTrie) (p : List Char)
    (tp gp sp : Option (List Char)) :
    searchByTitle st p (some 0) = searchByTitle st p none ∧
    advancedSearch st tp gp sp (some 0) = advancedSearch st tp gp sp none := by
  have h : applyLimit (some 0) = applyLimit none := by
    funext r
    simp [applyLimit, pyTruthyNat]
  constructor <;> simp [searchByTitle, advancedSearch, h]

/-- Membership in the modelled set intersection. -/
theorem mem_setInter {i : Nat} {a b : List Nat} :
    i ∈ setInter a b ↔ i ∈ a ∧ i ∈ b := by
  simp [setInter, List.mem_filter]

/-- The modelled set intersection agrees with `Finset` intersection. -/
theorem setInter_toFinset (a b : List Nat) :
    (setInter a b).toFinset = a.toFinset ∩ b.toFinset := by
  ext i
  simp [mem_setInter]

/-- In a well-keyed table (every stored record's `id` equals its key),
a successful lookup returns a record carrying the looked-up identifier. -/
theorem lookupTable_id_eq {tbl : List (Nat × Anime)}
    (hok : ∀ p ∈ tbl, (p : Nat × Anime).2.id = p.1) {i : Nat} {a : Anime}
    (h : lookupTable tbl i = some a) : a.id = i := by
  induction tbl with
  | nil => simp [lookupTable] at h
  | cons p r ih =>
    obtain ⟨k, b⟩ := p
    simp only [lookupTable] at h
    by_cases hk : k = i
    · subst hk
      rw [if_pos rfl] at h
      injection h with h
      have hb := hok (k, b) (List.mem_cons_self _ _)
      rw [← h]
      simpa using hb
    · rw [if_neg hk] at h
      exact ih (fun q hq => hok q (List.mem_cons_of_mem _ hq)) h

/-- Materialization keeps exactly the requested identifiers, in order:
when `lookupAll` succeeds in a well-keyed table, the ids of the returned
records are the requested key list. -/
theorem lookupAll_map_id {tbl : List (Nat × Anime)}
    (hok : ∀ p ∈ tbl, (p : Nat × Anime).2.id = p.1) :
    ∀ {ks : List Nat} {L : List Anime}, lookupAll tbl ks = some L →
      L.map Anime.id = ks := by
  intro ks
  induction ks with
  | nil => intro L h; simp [lookupAll] at h; simp [← h]
  | cons i r ih =>
    intro L h
    simp only [lookupAll] at h
    cases hl : lookupTable tbl i with
    | none => rw [hl] at h; exact absurd h (by simp)
    | some a =>
      rw [hl] at h
      cases hr : lookupAll tbl r with
      | none => rw [hr] at h; exact absurd h (by simp)
      | some l =>
        rw [hr] at h
        injection h with h
        subst h
        simp [lookupTable_id_eq hok hl, ih hr]

/-- `sorted(·)` really is ascending. -/
theorem sorted_sortedIdList (s : List Nat) :
    List.Sorted (· ≤ ·) (sortedIdList s) :=
  List.sorted_insertionSort (· ≤ ·) s

/-- C4.  Intersection correctness of `advanced_search`: with all three
prefixes supplied (non-empty, hence truthy), the identifier set equals the
intersection of the three single-field trie query sets; with no field
supplied it is every live identifier; materialized results are in
ascending identifier order (in a well-keyed table) and a positive limit
truncates the untruncated result. -/
theorem c4_advanced_intersection (st : AnimeTrie)
    (hok : ∀ p ∈ st.animeById, (p : Nat × Anime).2.id = p.1)
    (t g s : List Char) (ht : t ≠ []) (hg : g ≠ []) (hs : s ≠ [])
    (n : Nat) (hn : 0 < n) :
    (advancedIds st (some t) (some g) (some s)).toFinset =
      (searchInTrie st.root t).toFinset ∩ (searchInTrie st.genreTrie g).toFinset ∩
        (searchInTrie st.studioTrie s).toFinset ∧
    advancedIds st none none none = tableKeys st.animeById ∧
    (∀ L, advancedSearch st (some t) (some g) (some s) none = some L →
      List.Sorted (· ≤ ·) (L.map Anime.id)) ∧
    advancedSearch st (some t) (some g) (some s) (some n) =
      (advancedSearch st (some t) (some g) (some s) none).map (List.take n) := by
  have htru : pyTruthyStr (some t) = true := by
    cases t with
    | nil => exact absurd rfl ht
    | cons c r => rfl
  have hgtru : pyTruthyStr (some g) = true := by
    cases g with
    | nil => exact absurd rfl hg
    | cons c r => rfl
  have hstru : pyTruthyStr (some s) = true := by
    cases s with
    | nil => exact absurd rfl hs
    | cons c r => rfl
  refine ⟨?_, rfl, ?_, ?_⟩
  · simp only [advancedIds, htru, hgtru, hstru, if_true, Option.getD_some]
    rw [setInter_toFinset, setInter_toFinset]
  · intro L hL
    simp only [advancedSearch] at hL
    cases hlk : lookupAll st.animeById
        (sortedIdList (advancedIds st (some t) (some g) (some s))) with
    | none => rw [hlk] at hL; exact absurd hL (by simp)
    | some r =>
      rw [hlk] at hL
      injection hL with hL
      have hr : applyLimit none r = r := rfl
      rw [hr] at hL
      rw [← hL, lookupAll_map_id hok hlk]
      exact sorted_sortedIdList _
  · have hne : pyTruthyNat (some n) = true := by
      simp [pyTruthyNat]
      omega
    simp only [advancedSearch]
    cases hlk : lookupAll st.animeById
        (sortedIdList (advancedIds st (some t) (some g) (some s))) with
    | none => rfl
    | some r =>
      show some (applyLimit (some n) r) = some ((applyLimit none r).take n)
      have h1 : applyLimit (some n) r = r.take n := by
        simp [applyLimit, hne]
      have h2 : applyLimit none r = r := rfl
      rw [h1, h2]

/-- C4 witness: the intersection/sortedness/limit statement instantiated on
the concrete one-record index. -/
theorem c4_advanced_intersection_witness :
    (advancedIds stFull (some ['a']) (some ['g']) (some ['s'])).toFinset =
      (searchInTrie stFull.root ['a']).toFinset ∩
        (searchInTrie stFull.genreTrie ['g']).toFinset ∩
        (searchInTrie stFull.studioTrie ['s']).toFinset ∧
    advancedIds stFull none none none = tableKeys stFull.animeById ∧
    (∀ L, advancedSearch stFull (some ['a']) (some ['g']) (some ['s']) none = some L →
      List.Sorted (· ≤ ·) (L.map Anime.id)) ∧
    advancedSearch stFull (some ['a']) (some ['g']) (some ['s']) (some 1) =
      (advancedSearch stFull (some ['a']) (some ['g']) (some ['s']) none).map
        (List.take 1) :=
  c4_advanced_intersection stFull (by decide) ['a'] ['g'] ['s']
    (by decide) (by decide) (by decide) 1 (by decide)

/-- A successful child lookup is a member of the child map. -/
theorem findChild_some_mem {l : List (Char × TrieNode)} {c : Char} {m : TrieNode}
    (h : findChild l c = some m) : (c, m) ∈ l := by
  induction l with
  | nil => simp [findChild] at h
  | cons p r ih =>
    obtain ⟨k, v⟩ := p
    simp only [findChild] at h
    by_cases hk : k = c
    · subst hk
      rw [if_pos rfl] at h
      injection h with h
      subst h
      exact List.mem_cons_self _ _
    · rw [if_neg hk] at h
      exact List.mem_cons_of_mem _ (ih h)

/-- Unfolding characterization of `idFree`. -/
theorem idFree_iff (i : Nat) (n : TrieNode) :
    idFree i n = true ↔
      i ∉ n.animeIds ∧ ∀ p ∈ n.children, idFree i (p : Char × TrieNode).2 = true := by
  rw [idFree]
  simp [List.all_eq_true]

/-- The empty node is free of every identifier. -/
theorem idFree_emptyNode (i : Nat) : idFree i emptyNode = true := by
  rw [idFree_iff]
  exact ⟨by simp [emptyNode, TrieNode.animeIds], by simp [emptyNode, TrieNode.children]⟩

/-- An identifier free of a subtrie is in no query answer from it. -/
theorem idFree_not_mem_searchGo {i : Nat} :
    ∀ (p : List Char) (n : TrieNode), idFree i n = true → i ∉ searchGo p n := by
  intro p
  induction p with
  | nil =>
    intro n h
    exact ((idFree_iff i n).mp h).1
  | cons c r ih =>
    intro n h
    simp only [searchGo]
    cases hf : findChild n.children c with
    | none => simp
    | some child =>
      exact ih child (((idFree_iff i n).mp h).2 _ (findChild_some_mem hf))

/-- Walking preserves `idFree`. -/
theorem idFree_walkNode {i : Nat} :
    ∀ (p : List Char) (n m : TrieNode), idFree i n = true → walkNode p n = some m →
      idFree i m = true := by
  intro p
  induction p with
  | nil =>
    intro n m h hw
    simp only [walkNode] at hw
    injection hw with hw
    exact hw ▸ h
  | cons c r ih =>
    intro n m h hw
    simp only [walkNode] at hw
    cases hf : findChild n.children c with
    | none => rw [hf] at hw; exact absurd hw (by simp)
    | some child =>
      rw [hf] at hw
      exact ih child m (((idFree_iff i n).mp h).2 _ (findChild_some_mem hf)) hw

/-- Looking up an old key ignores a freshly appended entry. -/
theorem lookupTable_append_fresh {tbl : List (Nat × Anime)} {i0 j : Nat} {a0 : Anime}
    (hne : j ≠ i0) : lookupTable (tbl ++ [(i0, a0)]) j = lookupTable tbl j := by
  induction tbl with
  | nil =>
    simp only [List.nil_append, lookupTable]
    rw [if_neg (fun h => hne h.symm)]
  | cons p r ih =>
    obtain ⟨k, v⟩ := p
    simp only [List.cons_append, lookupTable]
    by_cases hk : k = j
    · rw [if_pos hk, if_pos hk]
    · rw [if_neg hk, if_neg hk]
      exact ih

/-- `sorted(·)` does not change membership. -/
theorem mem_sortedIdList {j : Nat} {s : List Nat} : j ∈ sortedIdList s ↔ j ∈ s :=
  (List.perm_insertionSort _ _).mem_iff

/-- The inner suggestion loop ignores a freshly appended table entry whose
identifier does not occur among the iterated identifiers. -/
theorem collectTitles_fresh {tbl : List (Nat × Anime)} {i0 : Nat} {a0 : Anime} {m : Nat} :
    ∀ (ids : List Nat) (acc : List (List Char)), (∀ j ∈ ids, j ≠ i0) →
      collectTitles (tbl ++ [(i0, a0)]) m ids acc = collectTitles tbl m ids acc := by
  intro ids
  induction ids with
  | nil => intro acc h; rfl
  | cons j r ih =>
    intro acc h
    have hj : j ≠ i0 := h j (List.mem_cons_self _ _)
    simp only [collectTitles, lookupTable_append_fresh hj]
    cases lookupTable tbl j with
    | none => exact ih acc (fun q hq => h q (List.mem_cons_of_mem _ hq))
    | some b =>
      by_cases hlen : m ≤ (strInsert (displayTitle b) acc).length
      · simp [hlen]
      · simp [hlen]
        exact ih _ (fun q hq => h q (List.mem_cons_of_mem _ hq))

/-- The outer suggestion loop ignores a freshly appended table entry whose
identifier is free of every stacked subtrie. -/
theorem suggestLoop_fresh (tbl : List (Nat × Anime)) (i0 : Nat) (a0 : Anime) (m : Nat) :
    ∀ (stack : List (TrieNode × List Char)) (acc : List (List Char)),
      (∀ q ∈ stack, idFree i0 (q : TrieNode × List Char).1 = true) →
      suggestLoop (tbl ++ [(i0, a0)]) m stack acc = suggestLoop tbl m stack acc := by
  intro stack acc
  induction stack, acc using suggestLoop.induct (tbl ++ [(i0, a0)]) m with
  | case1 acc =>
    intro _
    simp only [suggestLoop]
  | case2 n w stack acc hcap =>
    intro _
    simp only [suggestLoop]
    rw [if_pos hcap, if_pos hcap]
  | case3 n w stack acc hcap acc1 ih =>
    intro h
    have hn : idFree i0 n = true := h (n, w) (List.mem_cons_self _ _)
    have hids : ∀ j ∈ sortedIdList n.animeIds, j ≠ i0 := by
      intro j hj hji
      exact ((idFree_iff i0 n).mp hn).1 (hji ▸ mem_sortedIdList.mp hj)
    have hacc : (if n.isEndOfWord then
          collectTitles (tbl ++ [(i0, a0)]) m (sortedIdList n.animeIds) acc else acc) =
        (if n.isEndOfWord then collectTitles tbl m (sortedIdList n.animeIds) acc
         else acc) := by
      by_cases he : n.isEndOfWord = true
      · rw [if_pos he, if_pos he]
        exact collectTitles_fresh _ _ hids
      · rw [if_neg he, if_neg he]
    have hstack : ∀ q ∈ (n.children.reverse.map
          (fun p => ((p : Char × TrieNode).2, w ++ [p.1])) ++ stack),
        idFree i0 (q : TrieNode × List Char).1 = true := by
      intro q hq
      rcases List.mem_append.mp hq with hq | hq
      · obtain ⟨p, hp, rfl⟩ := List.mem_map.mp hq
        exact ((idFree_iff i0 n).mp hn).2 p (List.mem_reverse.mp hp)
      · exact h q (List.mem_cons_of_mem _ hq)
    simp only [suggestLoop]
    rw [if_neg hcap, if_neg hcap]
    exact (ih hstack).trans (congrArg _ hacc)

/-- Indexing skips every title whose raw text is whitespace-only. -/
theorem foldl_skip_blank (i : Nat) :
    ∀ (l : List (List Char)) (t0 : TrieNode), (∀ t ∈ l, stripWs t = []) →
      l.foldl (fun t s => if stripWs s = [] then t else addToTrie t s i) t0 = t0 := by
  intro l
  induction l with
  | nil => intro t0 _; rfl
  | cons x r ih =>
    intro t0 h
    simp only [List.foldl_cons]
    rw [if_pos (h x (List.mem_cons_self _ _))]
    exact ih t0 (fun q hq => h q (List.mem_cons_of_mem _ hq))

/-- C5 counterexample.  The record with title "!" has every derivable text
normalizing to the empty string, yet `add_anime` does modify the title
trie: the raw guard `title.strip()` passes for "!", `_add_to_trie` walks
zero characters and adds the identifier at the root, so the record is
returned by `search_by_title("")` — it is not invisible to prefix search,
refuting the claim. -/
theorem c5_counterexample :
    (∀ t ∈ titlesOf (mkAnime 1 ['!']), normalizeText t = []) ∧
    (addAnime emptyAnimeTrie (mkAnime 1 ['!'])).root ≠ emptyAnimeTrie.root ∧
    searchByTitle (addAnime emptyAnimeTrie (mkAnime 1 ['!'])) [] none =
      some [mkAnime 1 ['!']] := by
  refine ⟨by decide, ?_, rfl⟩
  intro h
  have h2 : searchInTrie (addAnime emptyAnimeTrie (mkAnime 1 ['!'])).root [] =
      searchInTrie emptyAnimeTrie.root [] := by rw [h]
  revert h2
  decide

/-- C5 (amended).  The guard in `add_anime` checks the raw
whitespace-stripped title, not the normalized one.  For a fresh record
whose every collected title is whitespace-only as raw text and which has no
genres and no studios, `add_anime` registers the record in `_anime_by_id`
(visible in `get_all_anime`, counted by `total_anime`) and leaves all
three tries unchanged, so — provided its identifier is not a stale
leftover inside the tries — it appears in no trie query and all
suggestions are unchanged. -/
theorem c5_blank_record_registered_not_indexed (st : AnimeTrie) (a : Anime)
    (hid : a.id ∉ tableKeys st.animeById)
    (htitles : ∀ t ∈ titlesOf a, stripWs t = [])
    (hg : a.genres = []) (hs : a.studios = [])
    (hfr : idFree a.id st.root = true) (hfg : idFree a.id st.genreTrie = true)
    (hfs : idFree a.id st.studioTrie = true) :
    (addAnime st a).root = st.root ∧
    (addAnime st a).genreTrie = st.genreTrie ∧
    (addAnime st a).studioTrie = st.studioTrie ∧
    (addAnime st a).animeById = st.animeById ++ [(a.id, a)] ∧
    a ∈ getAllAnime (addAnime st a) ∧
    totalAnime (addAnime st a) = totalAnime st + 1 ∧
    (∀ p, a.id ∉ searchInTrie (addAnime st a).root p) ∧
    (∀ p, a.id ∉ searchInTrie (addAnime st a).genreTrie p) ∧
    (∀ p, a.id ∉ searchInTrie (addAnime st a).studioTrie p) ∧
    (∀ p m, getSuggestions (addAnime st a) p m = getSuggestions st p m) := by
  have hstep : addAnime st a =
      { root := st.root, animeById := st.animeById ++ [(a.id, a)],
        genreTrie := st.genreTrie, studioTrie := st.studioTrie } := by
    rw [addAnime, if_neg hid, foldl_skip_blank a.id _ st.root htitles, hg, hs]
    rfl
  have hroot : (addAnime st a).root = st.root := by rw [hstep]
  have hgt : (addAnime st a).genreTrie = st.genreTrie := by rw [hstep]
  have hst : (addAnime st a).studioTrie = st.studioTrie := by rw [hstep]
  have htbl : (addAnime st a).animeById = st.animeById ++ [(a.id, a)] := by rw [hstep]
  refine ⟨hroot, hgt, hst, htbl, ?_, ?_, ?_, ?_, ?_, ?_⟩
  · exact (List.perm_insertionSort _ _).mem_iff.mpr (by simp [htbl])
  · simp [totalAnime, htbl]
  · intro p
    rw [hroot]
    exact idFree_not_mem_searchGo _ _ hfr
  · intro p
    rw [hgt]
    exact idFree_not_mem_searchGo _ _ hfg
  · intro p
    rw [hst]
    exact idFree_not_mem_searchGo _ _ hfs
  · intro p m
    simp only [getSuggestions, hroot, htbl]
    cases hw : walkNode (normalizeText p) st.root with
    | none => rfl
    | some node =>
      have hnode : idFree a.id node = true := idFree_walkNode _ st.root node hfr hw
      have hsl := suggestLoop_fresh st.animeById a.id a m [(node, normalizeText p)] []
        (by
          intro q hq
          obtain rfl := List.mem_singleton.mp hq
          exact hnode)
      show sortStrings (suggestLoop (st.animeById ++ [(a.id, a)]) m
          [(node, normalizeText p)] []) =
        sortStrings (suggestLoop st.animeById m [(node, normalizeText p)] [])
      rw [hsl]

/-- C5 witness: the amended statement instantiated on the empty index and
the whitespace-only-titled record. -/
theorem c5_blank_record_registered_not_indexed_witness :
    (∀ t ∈ titlesOf animeBlank, stripWs t = []) ∧
    ((addAnime emptyAnimeTrie animeBlank).root = emptyAnimeTrie.root ∧
    (addAnime emptyAnimeTrie animeBlank).genreTrie = emptyAnimeTrie.genreTrie ∧
    (addAnime emptyAnimeTrie animeBlank).studioTrie = emptyAnimeTrie.studioTrie ∧
    (addAnime emptyAnimeTrie animeBlank).animeById =
      emptyAnimeTrie.animeById ++ [(animeBlank.id, animeBlank)] ∧
    animeBlank ∈ getAllAnime (addAnime emptyAnimeTrie animeBlank) ∧
    totalAnime (addAnime emptyAnimeTrie animeBlank) = totalAnime emptyAnimeTrie + 1 ∧
    (∀ p, animeBlank.id ∉ searchInTrie (addAnime emptyAnimeTrie animeBlank).root p) ∧
    (∀ p, animeBlank.id ∉ searchInTrie (addAnime emptyAnimeTrie animeBlank).genreTrie p) ∧
    (∀ p, animeBlank.id ∉ searchInTrie (addAnime emptyAnimeTrie animeBlank).studioTrie p) ∧
    (∀ p m, getSuggestions (addAnime emptyAnimeTrie animeBlank) p m =
      getSuggestions emptyAnimeTrie p m)) :=
  ⟨by decide,
    c5_blank_record_registered_not_indexed emptyAnimeTrie animeBlank
      (by decide) (by decide) rfl rfl
      (idFree_emptyNode _) (idFree_emptyNode _) (idFree_emptyNode _)⟩

/-- Decomposition outputs are decomposition-stable characters. -/
theorem decomposeChar_of_mem {c d : Char} (h : d ∈ decomposeChar c) :
    decomposeChar d = [d] := by
  by_cases h1 : c = 'á'
  · rw [decomposeChar, if_pos h1] at h
    simp only [List.mem_cons, List.not_mem_nil, or_false] at h
    rcases h with rfl | rfl <;> decide
  · by_cases h2 : c = 'ô'
    · rw [decomposeChar, if_neg h1, if_pos h2] at h
      simp only [List.mem_cons, List.not_mem_nil, or_false] at h
      rcases h with rfl | rfl <;> decide
    · by_cases h3 : c = 'Á'
      · rw [decomposeChar, if_neg h1, if_neg h2, if_pos h3] at h
        simp only [List.mem_cons, List.not_mem_nil, or_false] at h
        rcases h with rfl | rfl <;> decide
      · by_cases h4 : c = 'Ô'
        · rw [decomposeChar, if_neg h1, if_neg h2, if_neg h3, if_pos h4] at h
          simp only [List.mem_cons, List.not_mem_nil, or_false] at h
          rcases h with rfl | rfl <;> decide
        · rw [decomposeChar, if_neg h1, if_neg h2, if_neg h3, if_neg h4] at h
          simp only [List.mem_cons, List.not_mem_nil, or_false] at h
          subst h
          rw [decomposeChar, if_neg h1, if_neg h2, if_neg h3, if_neg h4]

/-- `toLowerChar` either yields a lowercase ASCII letter or fixes its
argument. -/
theorem toLowerChar_lower_or_fix (d : Char) :
    toLowerChar d ∈ ['a', 'b', 'c', 'd', 'e', 'f', 'g', 'h', 'i', 'j', 'k', 'l', 'm',
      'n', 'o', 'p', 'q', 'r', 's', 't', 'u', 'v', 'w', 'x', 'y', 'z'] ∨
    toLowerChar d = d := by
  unfold toLowerChar
  cases hf : lowerTable.find? (fun p => p.1 == d) with
  | none => exact Or.inr rfl
  | some p =>
    left
    have hp : p ∈ lowerTable := List.mem_of_find?_eq_some hf
    have hall : ∀ q ∈ lowerTable, (q : Char × Char).2 ∈
        ['a', 'b', 'c', 'd', 'e', 'f', 'g', 'h', 'i', 'j', 'k', 'l', 'm',
         'n', 'o', 'p', 'q', 'r', 's', 't', 'u', 'v', 'w', 'x', 'y', 'z'] := by decide
    exact hall p hp

/-- Lowercase ASCII letters are fixed by the whole character pipeline. -/
theorem lower_ascii_stable :
    ∀ x ∈ ['a', 'b', 'c', 'd', 'e', 'f', 'g', 'h', 'i', 'j', 'k', 'l', 'm',
      'n', 'o', 'p', 'q', 'r', 's', 't', 'u', 'v', 'w', 'x', 'y', 'z'],
      decomposeChar x = [x] ∧ isCombiningChar x = false ∧ toLowerChar x = x := by
  decide

/-- Lowercasing preserves decomposition stability. -/
theorem decomposeChar_toLowerChar {d : Char} (h : decomposeChar d = [d]) :
    decomposeChar (toLowerChar d) = [toLowerChar d] := by
  rcases toLowerChar_lower_or_fix d with hm | he
  · exact (lower_ascii_stable _ hm).1
  · rw [he]
    exact h

/-- Lowercasing preserves non-combiningness. -/
theorem isCombiningChar_toLowerChar {d : Char} (h : isCombiningChar d = false) :
    isCombiningChar (toLowerChar d) = false := by
  rcases toLowerChar_lower_or_fix d with hm | he
  · exact (lower_ascii_stable _ hm).2.1
  · rw [he]
    exact h

/-- Lowercasing is idempotent. -/
theorem toLowerChar_idem (d : Char) : toLowerChar (toLowerChar d) = toLowerChar d := by
  rcases toLowerChar_lower_or_fix d with hm | he
  · exact (lower_ascii_stable _ hm).2.2
  · rw [he, he]

/-- Characters of a collapsed string are spaces or characters of the
input. -/
theorem mem_collapseGo {x : Char} :
    ∀ (l : List Char) (b : Bool), x ∈ collapseGo b l → x = ' ' ∨ x ∈ l := by
  intro l
  induction l with
  | nil => intro b h; simp [collapseGo] at h
  | cons d r ih =>
    intro b h
    simp only [collapseGo] at h
    by_cases hd : isWsChar d = true
    · rw [if_pos hd] at h
      cases b with
      | true =>
        rcases ih true h with h | h
        · exact Or.inl h
        · exact Or.inr (List.mem_cons_of_mem _ h)
      | false =>
        rcases List.mem_cons.mp h with h | h
        · exact Or.inl h
        · rcases ih true h with h | h
          · exact Or.inl h
          · exact Or.inr (List.mem_cons_of_mem _ h)
    · rw [if_neg hd] at h
      rcases List.mem_cons.mp h with h | h
      · exact Or.inr (h ▸ List.mem_cons_self _ _)
      · rcases ih false h with h | h
        · exact Or.inl h
        · exact Or.inr (List.mem_cons_of_mem _ h)

/-- Characters survive `rdropWs` only from the input. -/
theorem mem_rdropWs {x : Char} : ∀ {l : List Char}, x ∈ rdropWs l → x ∈ l := by
  intro l
  induction l with
  | nil => intro h; simp [rdropWs] at h
  | cons d r ih =>
    intro h
    simp only [rdropWs] at h
    split at h
    · simp at h
    · rcases List.mem_cons.mp h with h | h
      · exact h ▸ List.mem_cons_self _ _
      · exact List.mem_cons_of_mem _ (ih h)

/-- Characters of a stripped string come from the input. -/
theorem mem_stripWs {x : Char} {l : List Char} (h : x ∈ stripWs l) : x ∈ l := by
  have h1 : x ∈ l.dropWhile isWsChar := mem_rdropWs h
  exact (List.dropWhile_sublist _).mem h1

/-- Characters of a decomposed string come from decomposing some input
character. -/
theorem mem_concatMapChar {x : Char} {f : Char → List Char} :
    ∀ {l : List Char}, x ∈ concatMapChar f l → ∃ e ∈ l, x ∈ f e := by
  intro l
  induction l with
  | nil => intro h; simp [concatMapChar] at h
  | cons d r ih =>
    intro h
    simp only [concatMapChar] at h
    rcases List.mem_append.mp h with h | h
    · exact ⟨d, List.mem_cons_self _ _, h⟩
    · obtain ⟨e, he, hx⟩ := ih h
      exact ⟨e, List.mem_cons_of_mem _ he, hx⟩

/-- Every character of a normalized string is fixed by the whole character
pipeline: decomposition-stable, non-combining, lowercase-fixed, and kept. -/
theorem normalizeText_char_stable {s : List Char} {x : Char}
    (hx : x ∈ normalizeText s) :
    decomposeChar x = [x] ∧ isCombiningChar x = false ∧ toLowerChar x = x ∧
      isKeptChar x = true := by
  simp only [normalizeText, collapseWs] at hx
  rcases mem_collapseGo _ _ hx with rfl | hx
  · exact ⟨by decide, by decide, by decide, by decide⟩
  · have hkept : isKeptChar x = true := (List.mem_filter.mp hx).2
    have hx2 : x ∈ stripWs
        (((concatMapChar decomposeChar s).filter
          (fun c => !isCombiningChar c)).map toLowerChar) :=
      (List.mem_filter.mp hx).1
    have hx3 := mem_stripWs hx2
    obtain ⟨d, hd, rfl⟩ := List.mem_map.mp hx3
    have hdcomb : (!isCombiningChar d) = true := (List.mem_filter.mp hd).2
    have hd1 : d ∈ concatMapChar decomposeChar s := (List.mem_filter.mp hd).1
    obtain ⟨e, _, hde⟩ := mem_concatMapChar hd1
    have hd_dec : decomposeChar d = [d] := decomposeChar_of_mem hde
    exact ⟨decomposeChar_toLowerChar hd_dec,
      isCombiningChar_toLowerChar (by simpa using hdcomb),
      toLowerChar_idem d, hkept⟩

/-- Decomposition fixes a string of decomposition-stable characters. -/
theorem concatMap_eq_self {l : List Char}
    (h : ∀ x ∈ l, decomposeChar x = [x]) : concatMapChar decomposeChar l = l := by
  induction l with
  | nil => rfl
  | cons d r ih =>
    simp only [concatMapChar]
    rw [h d (List.mem_cons_self _ _), ih (fun x hx => h x (List.mem_cons_of_mem _ hx))]
    rfl

/-- Mapping a pointwise-identity function fixes a string. -/
theorem map_eq_self {l : List Char} {f : Char → Char} (h : ∀ x ∈ l, f x = x) :
    l.map f = l := by
  induction l with
  | nil => rfl
  | cons d r ih =>
    simp only [List.map_cons]
    rw [h d (List.mem_cons_self _ _), ih (fun x hx => h x (List.mem_cons_of_mem _ hx))]

/-- Collapsing produces whitespace-normal strings. -/
theorem wsNormal_collapseGo : ∀ (l : List Char) (b : Bool),
    wsNormal b (collapseGo b l) = true := by
  intro l
  induction l with
  | nil => intro b; rfl
  | cons d r ih =>
    intro b
    by_cases hd : isWsChar d = true
    · cases b with
      | true => simpa [collapseGo, hd] using ih true
      | false => simpa [collapseGo, wsNormal, hd] using ih true
    · simpa [collapseGo, wsNormal, hd] using ih false

/-- `wsNormal` unfolding at a whitespace head. -/
theorem wsNormal_cons_ws {d : Char} {r : List Char} {b : Bool}
    (hd : isWsChar d = true) :
    wsNormal b (d :: r) = true ↔ d = ' ' ∧ b = false ∧ wsNormal true r = true := by
  simp [wsNormal, hd, Bool.and_eq_true, and_assoc]

/-- `wsNormal` unfolding at a non-whitespace head. -/
theorem wsNormal_cons_nonws {d : Char} {r : List Char} {b : Bool}
    (hd : ¬ isWsChar d = true) :
    wsNormal b (d :: r) = true ↔ wsNormal false r = true := by
  simp [wsNormal, hd]

/-- Collapsing fixes whitespace-normal strings. -/
theorem collapseGo_of_wsNormal : ∀ (l : List Char) (b : Bool),
    wsNormal b l = true → collapseGo b l = l := by
  intro l
  induction l with
  | nil => intro b _; rfl
  | cons d r ih =>
    intro b h
    by_cases hd : isWsChar d = true
    · obtain ⟨hsp, hb, hr⟩ := (wsNormal_cons_ws hd).mp h
      subst hb
      simp only [collapseGo, hd, if_pos, Bool.false_eq_true, if_false]
      rw [ih true hr, hsp]
    · rw [wsNormal_cons_nonws hd] at h
      have hco : collapseGo b (d :: r) = d :: collapseGo false r := by
        simp [collapseGo, hd]
      rw [hco, ih false h]

/-- Dropping a leading whitespace run preserves whitespace-normality. -/
theorem wsNormal_dropWhile : ∀ (l : List Char), wsNormal false l = true →
    wsNormal false (l.dropWhile isWsChar) = true := by
  intro l h
  cases l with
  | nil => exact h
  | cons d r =>
    by_cases hd : isWsChar d = true
    · have hr : wsNormal true r = true := ((wsNormal_cons_ws hd).mp h).2.2
      rw [List.dropWhile_cons_of_pos hd]
      cases r with
      | nil => rfl
      | cons e r' =>
        by_cases he : isWsChar e = true
        · obtain ⟨_, hcon, _⟩ := (wsNormal_cons_ws he).mp hr
          simp at hcon
        · rw [List.dropWhile_cons_of_neg (by simp [he])]
          rw [wsNormal_cons_nonws he] at hr ⊢
          exact hr
    · rwa [List.dropWhile_cons_of_neg (by simp [hd])]

/-- Dropping a trailing whitespace run preserves whitespace-normality. -/
theorem wsNormal_rdropWs : ∀ (l : List Char) (b : Bool), wsNormal b l = true →
    wsNormal b (rdropWs l) = true := by
  intro l
  induction l with
  | nil => intro b _; rfl
  | cons d r ih =>
    intro b h
    simp only [rdropWs]
    split
    · rfl
    · by_cases hd : isWsChar d = true
      · obtain ⟨hsp, hb, hr⟩ := (wsNormal_cons_ws hd).mp h
        exact (wsNormal_cons_ws hd).mpr ⟨hsp, hb, ih true hr⟩
      · rw [wsNormal_cons_nonws hd] at h
        exact (wsNormal_cons_nonws hd).mpr (ih false h)

/-- Stripping preserves whitespace-normality. -/
theorem wsNormal_stripWs {l : List Char} (h : wsNormal false l = true) :
    wsNormal false (stripWs l) = true :=
  wsNormal_rdropWs _ _ (wsNormal_dropWhile _ h)

/-- The output of normalization is whitespace-normal. -/
theorem wsNormal_normalizeText (s : List Char) :
    wsNormal false (normalizeText s) = true := by
  simp only [normalizeText, collapseWs]
  exact wsNormal_collapseGo _ false

/-- C6 counterexample.  Normalization is not idempotent: `"a !"` normalizes
to `"a "` (the `strip()` runs before punctuation removal, so removing `!`
exposes a trailing space that is never trimmed), and a second application
strips that space, giving `"a"`. -/
theorem c6_counterexample :
    normalizeText (normalizeText ['a', ' ', '!']) ≠ normalizeText ['a', ' ', '!'] := by
  decide

/-- C6 (amended).  A second normalization pass exactly trims the first:
`normalize (normalize s) = strip (normalize s)` for every `s`, so
idempotence holds precisely when `normalize s` carries no leading/trailing
whitespace; the case/diacritic variants "Naruto"/"NARUTO"/"nárutô" do all
normalize to the same key "naruto". -/
theorem c6_normalize_idempotent_up_to_strip (s : List Char) :
    normalizeText (normalizeText s) = stripWs (normalizeText s) ∧
    normalizeText "Naruto".toList = normalizeText "NARUTO".toList ∧
    normalizeText "NARUTO".toList = normalizeText "nárutô".toList ∧
    normalizeText "Naruto".toList = "naruto".toList := by
  refine ⟨?_, by decide, by decide, by decide⟩
  set y := normalizeText s with hy
  have h1 : concatMapChar decomposeChar y = y :=
    concatMap_eq_self (fun x hx => (normalizeText_char_stable (hy ▸ hx)).1)
  have h2 : y.filter (fun c => !isCombiningChar c) = y :=
    List.filter_eq_self.mpr (fun x hx => by
      rw [(normalizeText_char_stable (hy ▸ hx)).2.1]
      rfl)
  have h3 : y.map toLowerChar = y :=
    map_eq_self (fun x hx => (normalizeText_char_stable (hy ▸ hx)).2.2.1)
  have h4 : (stripWs y).filter isKeptChar = stripWs y :=
    List.filter_eq_self.mpr
      (fun x hx => (normalizeText_char_stable (hy ▸ mem_stripWs hx)).2.2.2)
  have h5 : collapseWs (stripWs y) = stripWs y :=
    collapseGo_of_wsNormal _ false (wsNormal_stripWs (hy ▸ wsNormal_normalizeText s))
  show normalizeText y = stripWs y
  simp only [normalizeText]
  rw [h1, h2, h3, h4]
  exact h5

/-- Whitespace is kept by the punctuation filter. -/
theorem isKeptChar_of_ws {c : Char} (h : isWsChar c = true) : isKeptChar c = true := by
  simp [isKeptChar, h]

/-- `collapseGo` unfolding: whitespace head inside a run. -/
theorem collapseGo_cons_ws_true {c : Char} {r : List Char} (hc : isWsChar c = true) :
    collapseGo true (c :: r) = collapseGo true r := by
  simp [collapseGo, hc]

/-- `collapseGo` unfolding: whitespace head starting a run. -/
theorem collapseGo_cons_ws_false {c : Char} {r : List Char} (hc : isWsChar c = true) :
    collapseGo false (c :: r) = ' ' :: collapseGo true r := by
  simp [collapseGo, hc]

/-- `collapseGo` unfolding: non-whitespace head. -/
theorem collapseGo_cons_nonws {c : Char} {r : List Char} {b : Bool}
    (hc : ¬ isWsChar c = true) : collapseGo b (c :: r) = c :: collapseGo false r := by
  simp [collapseGo, hc]

/-- Collapsing an all-whitespace string inside a run yields nothing. -/
theorem collapseGo_true_all_ws :
    ∀ {v : List Char}, (∀ c ∈ v, isWsChar c = true) → collapseGo true v = [] := by
  intro v
  induction v with
  | nil => intro _; rfl
  | cons c r ih =>
    intro h
    rw [collapseGo_cons_ws_true (h c (List.mem_cons_self _ _))]
    exact ih (fun x hx => h x (List.mem_cons_of_mem _ hx))

/-- A whitespace run is swallowed when already inside a run. -/
theorem collapseGo_true_ws_append {w : List Char}
    (hw : ∀ c ∈ w, isWsChar c = true) (u : List Char) :
    collapseGo true (w ++ u) = collapseGo true u := by
  induction w with
  | nil => rfl
  | cons c r ih =>
    rw [List.cons_append, collapseGo_cons_ws_true (hw c (List.mem_cons_self _ _))]
    exact ih (fun x hx => hw x (List.mem_cons_of_mem _ hx))

/-- After dropping leading whitespace the incoming-run flag is invisible. -/
theorem dropWhile_collapseGo_flag (u : List Char) :
    (collapseGo true u).dropWhile isWsChar = (collapseGo false u).dropWhile isWsChar := by
  cases u with
  | nil => rfl
  | cons c r =>
    by_cases hc : isWsChar c = true
    · rw [collapseGo_cons_ws_true hc, collapseGo_cons_ws_false hc,
        List.dropWhile_cons_of_pos (show isWsChar ' ' = true by decide)]
    · rw [collapseGo_cons_nonws hc, collapseGo_cons_nonws hc]

/-- A leading whitespace run disappears after collapse-then-left-strip. -/
theorem dropWhile_collapseGo_ws_append {w : List Char}
    (hw : ∀ c ∈ w, isWsChar c = true) (u : List Char) :
    (collapseGo false (w ++ u)).dropWhile isWsChar =
      (collapseGo false u).dropWhile isWsChar := by
  cases w with
  | nil => rfl
  | cons c r =>
    have hc := hw c (List.mem_cons_self _ _)
    have hr : ∀ x ∈ r, isWsChar x = true := fun x hx => hw x (List.mem_cons_of_mem _ hx)
    rw [List.cons_append, collapseGo_cons_ws_false hc,
      List.dropWhile_cons_of_pos (show isWsChar ' ' = true by decide),
      collapseGo_true_ws_append hr u, dropWhile_collapseGo_flag u]

/-- `rdropWs` congruence under a common head. -/
theorem rdropWs_cons_congr {l₁ l₂ : List Char} (c : Char)
    (h : rdropWs l₁ = rdropWs l₂) : rdropWs (c :: l₁) = rdropWs (c :: l₂) := by
  simp only [rdropWs, h]

/-- `rdropWs` unfolding when the tail does not vanish. -/
theorem rdropWs_cons_of_ne {c : Char} {r : List Char} (h : ¬ (rdropWs r = [] ∧ isWsChar c = true)) :
    rdropWs (c :: r) = c :: rdropWs r := by
  simp only [rdropWs]
  rw [if_neg]
  simp only [Bool.and_eq_true, decide_eq_true_eq]
  exact h

/-- `rdropWs` erases exactly the all-whitespace strings. -/
theorem rdropWs_eq_nil_iff :
    ∀ {l : List Char}, rdropWs l = [] ↔ ∀ c ∈ l, isWsChar c = true := by
  intro l
  induction l with
  | nil => simp [rdropWs]
  | cons c r ih =>
    constructor
    · intro h
      by_cases hcond : rdropWs r = [] ∧ isWsChar c = true
      · intro x hx
        rcases List.mem_cons.mp hx with rfl | hx
        · exact hcond.2
        · exact ih.mp hcond.1 x hx
      · rw [rdropWs_cons_of_ne hcond] at h
        exact absurd h (by simp)
    · intro h
      have h1 : rdropWs r = [] := ih.mpr (fun x hx => h x (List.mem_cons_of_mem _ hx))
      have h2 : isWsChar c = true := h c (List.mem_cons_self _ _)
      simp [rdropWs, h1, h2]

/-- Every string splits as its right-stripped core plus a whitespace tail. -/
theorem rdropWs_struct :
    ∀ (l : List Char), ∃ v, l = rdropWs l ++ v ∧ ∀ c ∈ v, isWsChar c = true := by
  intro l
  induction l with
  | nil => exact ⟨[], rfl, by simp⟩
  | cons c r ih =>
    obtain ⟨v, hv, hws⟩ := ih
    by_cases hcond : rdropWs r = [] ∧ isWsChar c = true
    · refine ⟨c :: r, ?_, ?_⟩
      · have : rdropWs (c :: r) = [] := by simp [rdropWs, hcond.1, hcond.2]
        rw [this]
        rfl
      · intro x hx
        rcases List.mem_cons.mp hx with rfl | hx
        · exact hcond.2
        · exact rdropWs_eq_nil_iff.mp hcond.1 x hx
    · refine ⟨v, ?_, hws⟩
      rw [rdropWs_cons_of_ne hcond, List.cons_append, ← hv]

/-- A trailing whitespace run is invisible after collapse-then-right-strip. -/
theorem rdropWs_collapseGo_ws_append {v : List Char}
    (hv : ∀ c ∈ v, isWsChar c = true) :
    ∀ (z : List Char) (b : Bool),
      rdropWs (collapseGo b (z ++ v)) = rdropWs (collapseGo b z) := by
  intro z
  induction z with
  | nil =>
    intro b
    cases v with
    | nil => rfl
    | cons c v' =>
      have hc := hv c (List.mem_cons_self _ _)
      have hv' : ∀ x ∈ v', isWsChar x = true :=
        fun x hx => hv x (List.mem_cons_of_mem _ hx)
      cases b with
      | true =>
        rw [List.nil_append, collapseGo_cons_ws_true hc, collapseGo_true_all_ws hv']
        rfl
      | false =>
        rw [List.nil_append, collapseGo_cons_ws_false hc, collapseGo_true_all_ws hv']
        decide
  | cons c z' ih =>
    intro b
    by_cases hc : isWsChar c = true
    · cases b with
      | true =>
        rw [List.cons_append, collapseGo_cons_ws_true hc, collapseGo_cons_ws_true hc]
        exact ih true
      | false =>
        rw [List.cons_append, collapseGo_cons_ws_false hc, collapseGo_cons_ws_false hc]
        exact rdropWs_cons_congr ' ' (ih true)
    · rw [List.cons_append, collapseGo_cons_nonws hc, collapseGo_cons_nonws hc]
      exact rdropWs_cons_congr c (ih false)

/-- Left- and right-stripping commute. -/
theorem rdropWs_dropWhile_comm :
    ∀ (l : List Char), rdropWs (l.dropWhile isWsChar) = (rdropWs l).dropWhile isWsChar := by
  intro l
  induction l with
  | nil => rfl
  | cons c r ih =>
    by_cases hc : isWsChar c = true
    · rw [List.dropWhile_cons_of_pos hc, ih]
      by_cases h1 : rdropWs r = []
      · rw [h1]
        have h2 : rdropWs (c :: r) = [] := by simp [rdropWs, h1, hc]
        rw [h2]
      · rw [rdropWs_cons_of_ne (by simp [h1]), List.dropWhile_cons_of_pos hc]
    · have h2 : rdropWs (c :: r) = c :: rdropWs r := rdropWs_cons_of_ne (by simp [hc])
      rw [List.dropWhile_cons_of_neg (by simp [hc]), h2,
        List.dropWhile_cons_of_neg (by simp [hc])]

/-- Dropping the leading whitespace run before the punctuation filter does
not change the trimmed collapsed result. -/
theorem strip_collapse_filter_dropWhile (u : List Char) :
    stripWs (collapseWs ((u.dropWhile isWsChar).filter isKeptChar)) =
      stripWs (collapseWs (u.filter isKeptChar)) := by
  have hw : ∀ c ∈ u.takeWhile isWsChar, isWsChar c = true :=
    fun c hc => List.mem_takeWhile_imp hc
  have hsplit : u.takeWhile isWsChar ++ u.dropWhile isWsChar = u :=
    List.takeWhile_append_dropWhile isWsChar u
  conv_rhs => rw [← hsplit]
  rw [List.filter_append,
    List.filter_eq_self.mpr (fun x hx => isKeptChar_of_ws (hw x hx))]
  simp only [stripWs, collapseWs]
  rw [dropWhile_collapseGo_ws_append hw]

/-- Dropping the trailing whitespace run before the punctuation filter does
not change the trimmed collapsed result. -/
theorem strip_collapse_filter_rdrop (u : List Char) :
    stripWs (collapseWs ((rdropWs u).filter isKeptChar)) =
      stripWs (collapseWs (u.filter isKeptChar)) := by
  obtain ⟨v, hv, hws⟩ := rdropWs_struct u
  conv_rhs => rw [hv]
  rw [List.filter_append,
    List.filter_eq_self.mpr (fun x hx => isKeptChar_of_ws (hws x hx))]
  simp only [stripWs, collapseWs]
  rw [rdropWs_dropWhile_comm, rdropWs_dropWhile_comm,
    rdropWs_collapseGo_ws_append hws]

/-- Stripping before the punctuation filter does not change the trimmed
collapsed result. -/
theorem strip_collapse_filter_strip (u : List Char) :
    stripWs (collapseWs ((stripWs u).filter isKeptChar)) =
      stripWs (collapseWs (u.filter isKeptChar)) := by
  have h1 : stripWs u = rdropWs (u.dropWhile isWsChar) := rfl
  rw [h1, strip_collapse_filter_rdrop (u.dropWhile isWsChar),
    strip_collapse_filter_dropWhile u]

/-- C7 counterexample.  The code's pipeline is not the specified one: the
specified order (trim last) maps `"a !"` to `"a"`, while `_normalize_text`
(which strips before discarding punctuation and never trims afterwards)
maps it to `"a "` — an output with trailing whitespace, which the claim
says can never happen. -/
theorem c7_counterexample :
    specNormalizeC7 ['a', ' ', '!'] ≠ normalizeText ['a', ' ', '!'] ∧
    normalizeText ['a', ' ', '!'] = ['a', ' '] := by
  constructor <;> decide

/-- C7 (amended).  `_normalize_text` applies the trim between lowercasing
and the punctuation discard, not at the end, so its output may retain
leading/trailing whitespace (`"a !" ↦ "a "`); the specified trim-last
pipeline computes exactly the trimmed version of the code's output. -/
theorem c7_strip_runs_before_filter (s : List Char) :
    specNormalizeC7 s = stripWs (normalizeText s) ∧
    normalizeText ['a', ' ', '!'] = ['a', ' '] := by
  refine ⟨?_, by decide⟩
  simp only [specNormalizeC7, normalizeText]
  exact (strip_collapse_filter_strip _).symm

/-- Membership in the modelled set insertion. -/
theorem mem_setInsert {j i : Nat} {l : List Nat} :
    j ∈ setInsert i l ↔ j = i ∨ j ∈ l := by
  by_cases h : i ∈ l
  · simp only [setInsert, if_pos h]
    constructor
    · exact Or.inr
    · rintro (rfl | hj)
      · exact h
      · exact hj
  · simp only [setInsert, if_neg h, List.mem_cons]

/-- `findChild` after `setChild`: the written key reads back the written
node, every other key is untouched. -/
theorem findChild_setChild (l : List (Char × TrieNode)) (c : Char) (v : TrieNode)
    (c' : Char) :
    findChild (setChild l c v) c' = if c' = c then some v else findChild l c' := by
  induction l with
  | nil =>
    simp only [setChild, findChild]
    by_cases h : c' = c
    · subst h
      simp
    · rw [if_neg (fun hh : c = c' => h hh.symm), if_neg h]
  | cons p r ih =>
    obtain ⟨k, m⟩ := p
    simp only [setChild]
    by_cases hk : k = c
    · rw [if_pos hk]
      simp only [findChild]
      by_cases h : c' = c
      · subst h
        simp
      · rw [if_neg (fun hh : c = c' => h hh.symm), if_neg h,
          if_neg (fun hh : k = c' => h (hk.symm.trans hh).symm)]
    · rw [if_neg hk]
      simp only [findChild]
      by_cases hkc : k = c'
      · rw [if_pos hkc, if_neg (fun hh : c' = c => hk (hkc.trans hh)), if_pos hkc]
      · rw [if_neg hkc, ih]
        by_cases h : c' = c
        · rw [if_pos h, if_pos h]
        · rw [if_neg h, if_neg h, if_neg hkc]

/-- The identifier set written by the `_add_to_trie` walk at its entry
node: unchanged on a non-empty key, extended by the identifier on the
empty key. -/
theorem addGo_animeIds_nil (i : Nat) (n : TrieNode) :
    (addGo i [] n).animeIds = setInsert i n.animeIds := rfl

/-- On a non-empty key the walk leaves the entry node's identifiers
alone. -/
theorem addGo_animeIds_cons (i : Nat) (c : Char) (rest : List Char) (n : TrieNode) :
    (addGo i (c :: rest) n).animeIds = n.animeIds := rfl

/-- The empty node is hierarchical. -/
theorem SubHier_emptyNode : SubHier emptyNode := by
  refine SubHier.mk _ ?_ ?_ <;> intro c m h <;> simp [emptyNode, TrieNode.children, findChild] at h

/-- The invariant-preservation core of `_add_to_trie`: walking a key into a
hierarchical subtrie whose entry node just received the identifier yields a
hierarchical subtrie, and the entry node's identifier set gains exactly
that identifier. -/
theorem addGo_bump_spec (i : Nat) :
    ∀ (p : List Char) (n : TrieNode), SubHier n →
      SubHier (addGo i p (TrieNode.mk n.children n.isEndOfWord (setInsert i n.animeIds))) ∧
      (∀ j, j ∈ (addGo i p (TrieNode.mk n.children n.isEndOfWord
          (setInsert i n.animeIds))).animeIds ↔ (j = i ∨ j ∈ n.animeIds)) := by
  intro p
  induction p with
  | nil =>
    intro n hn
    cases hn with
    | mk _ hsub hrec =>
      constructor
      · refine SubHier.mk _ ?_ ?_
        · intro c m hf j hj
          have : j ∈ n.animeIds := hsub c m hf j hj
          show j ∈ setInsert i (setInsert i n.animeIds)
          exact mem_setInsert.mpr (Or.inr (mem_setInsert.mpr (Or.inr this)))
        · intro c m hf
          exact hrec c m hf
      · intro j
        show j ∈ setInsert i (setInsert i n.animeIds) ↔ _
        rw [mem_setInsert, mem_setInsert]
        tauto
  | cons c rest ih =>
    intro n hn
    cases hn with
    | mk _ hsub hrec =>
      have hchild : SubHier ((findChild n.children c).getD emptyNode) := by
        cases hf : findChild n.children c with
        | none => exact SubHier_emptyNode
        | some m => exact hrec c m hf
      have hchild_sub : ∀ j, j ∈ ((findChild n.children c).getD emptyNode).animeIds →
          j ∈ n.animeIds := by
        cases hf : findChild n.children c with
        | none => intro j hj; simp [emptyNode, TrieNode.animeIds] at hj
        | some m => exact hsub c m hf
      obtain ⟨hK, hKids⟩ := ih ((findChild n.children c).getD emptyNode) hchild
      constructor
      · refine SubHier.mk _ ?_ ?_
        · intro c' m' hf j hj
          rw [show (addGo i (c :: rest) (TrieNode.mk n.children n.isEndOfWord
              (setInsert i n.animeIds))).children =
            setChild n.children c (addGo i rest
              (TrieNode.mk ((findChild n.children c).getD emptyNode).children
                ((findChild n.children c).getD emptyNode).isEndOfWord
                (setInsert i ((findChild n.children c).getD emptyNode).animeIds)))
            from rfl, findChild_setChild] at hf
          show j ∈ setInsert i n.animeIds
          by_cases hc' : c' = c
          · rw [if_pos hc'] at hf
            injection hf with hf
            subst hf
            rcases (hKids j).mp hj with rfl | hj2
            · exact mem_setInsert.mpr (Or.inl rfl)
            · exact mem_setInsert.mpr (Or.inr (hchild_sub j hj2))
          · rw [if_neg hc'] at hf
            exact mem_setInsert.mpr (Or.inr (hsub c' m' hf j hj))
        · intro c' m' hf
          rw [show (addGo i (c :: rest) (TrieNode.mk n.children n.isEndOfWord
              (setInsert i n.animeIds))).children =
            setChild n.children c (addGo i rest
              (TrieNode.mk ((findChild n.children c).getD emptyNode).children
                ((findChild n.children c).getD emptyNode).isEndOfWord
                (setInsert i ((findChild n.children c).getD emptyNode).animeIds)))
            from rfl, findChild_setChild] at hf
          by_cases hc' : c' = c
          · rw [if_pos hc'] at hf
            injection hf with hf
            subst hf
            exact hK
          · rw [if_neg hc'] at hf
            exact hrec c' m' hf
      · intro j
        rw [addGo_animeIds_cons]
        show j ∈ setInsert i n.animeIds ↔ _
        rw [mem_setInsert]

/-- `_add_to_trie`'s walk preserves the whole-trie hierarchy invariant. -/
theorem Hier_addGo (i : Nat) (p : List Char) (n : TrieNode) (hn : Hier n) :
    Hier (addGo i p n) := by
  cases p with
  | nil =>
    intro c m hf
    exact hn c m hf
  | cons c rest =>
    intro c' m' hf
    rw [show (addGo i (c :: rest) n).children =
        setChild n.children c (addGo i rest
          (TrieNode.mk ((findChild n.children c).getD emptyNode).children
            ((findChild n.children c).getD emptyNode).isEndOfWord
            (setInsert i ((findChild n.children c).getD emptyNode).animeIds)))
      from rfl, findChild_setChild] at hf
    by_cases hc' : c' = c
    · rw [if_pos hc'] at hf
      injection hf with hf
      subst hf
      have hchild : SubHier ((findChild n.children c).getD emptyNode) := by
        cases hfc : findChild n.children c with
        | none => exact SubHier_emptyNode
        | some m => exact hn c m hfc
      exact (addGo_bump_spec i rest _ hchild).1
    · rw [if_neg hc'] at hf
      exact hn c' m' hf

/-- `_add_to_trie` preserves the hierarchy invariant. -/
theorem Hier_addToTrie (t : TrieNode) (text : List Char) (i : Nat) (ht : Hier t) :
    Hier (addToTrie t text i) :=
  Hier_addGo i (normalizeText text) t ht

/-- Folding invariant-preserving steps preserves the invariant. -/
theorem Hier_foldl {α : Type} (f : TrieNode → α → TrieNode)
    (hf : ∀ t a, Hier t → Hier (f t a)) :
    ∀ (l : List α) (t0 : TrieNode), Hier t0 → Hier (l.foldl f t0) := by
  intro l
  induction l with
  | nil => intro t0 h; exact h
  | cons x r ih =>
    intro t0 h
    simp only [List.foldl_cons]
    exact ih (f t0 x) (hf t0 x h)

/-- The empty trie satisfies the hierarchy invariant. -/
theorem Hier_emptyNode : Hier emptyNode := by
  intro c m h
  simp [emptyNode, TrieNode.children, findChild] at h

/-- Every reachable index state has hierarchical tries. -/
theorem reachable_Hier {st : AnimeTrie} (h : Reachable st) :
    Hier st.root ∧ Hier st.genreTrie ∧ Hier st.studioTrie := by
  induction h with
  | empty => exact ⟨Hier_emptyNode, Hier_emptyNode, Hier_emptyNode⟩
  | add st a _ ih =>
    obtain ⟨hr, hg, hs⟩ := ih
    by_cases hmem : a.id ∈ tableKeys st.animeById
    · rw [addAnime, if_pos hmem]
      exact ⟨hr, hg, hs⟩
    · rw [addAnime, if_neg hmem]
      refine ⟨?_, ?_, ?_⟩
      · exact Hier_foldl _ (fun t s ht => by
          by_cases hb : stripWs s = []
          · rwa [if_pos hb]
          · rw [if_neg hb]
            exact Hier_addToTrie t s a.id ht) _ _ hr
      · exact Hier_foldl _ (fun t g ht => Hier_addToTrie t g.name a.id ht) _ _ hg
      · exact Hier_foldl _ (fun t s ht => Hier_addToTrie t s.name a.id ht) _ _ hs
  | remove st i _ ih =>
    obtain ⟨hr, hg, hs⟩ := ih
    by_cases hmem : i ∈ tableKeys st.animeById
    · rw [removeAnime, if_pos hmem]
      exact ⟨hr, hg, hs⟩
    · rw [removeAnime, if_neg hmem]
      exact ⟨hr, hg, hs⟩
  | clear st _ _ =>
    exact ⟨Hier_emptyNode, Hier_emptyNode, Hier_emptyNode⟩

/-- Queries never escape a hierarchical subtrie's identifier set. -/
theorem searchGo_sub_of_SubHier :
    ∀ (e : List Char) (n : TrieNode), SubHier n →
      ∀ i ∈ searchGo e n, i ∈ n.animeIds := by
  intro e
  induction e with
  | nil => intro n _ i hi; exact hi
  | cons c e' ih =>
    intro n hn i hi
    simp only [searchGo] at hi
    cases hf : findChild n.children c with
    | none => rw [hf] at hi; simp at hi
    | some child =>
      rw [hf] at hi
      cases hn with
      | mk _ hsub hrec =>
        exact hsub c child hf i (ih child (hrec c child hf) i hi)

/-- Extending a query inside a hierarchical subtrie shrinks its answer. -/
theorem searchGo_append_sub :
    ∀ (q : List Char) (e : List Char) (n : TrieNode), SubHier n →
      ∀ i ∈ searchGo (q ++ e) n, i ∈ searchGo q n := by
  intro q
  induction q with
  | nil => intro e n hn i hi; exact searchGo_sub_of_SubHier e n hn i hi
  | cons c q' ih =>
    intro e n hn i hi
    simp only [List.cons_append, searchGo] at hi ⊢
    cases hf : findChild n.children c with
    | none => rw [hf] at hi; simp at hi
    | some child =>
      rw [hf] at hi
      cases hn with
      | mk _ _ hrec =>
        exact ih e child (hrec c child hf) i hi

/-- Extending a non-empty query from the root of a hierarchical trie
shrinks its answer (the root carries no containment, hence the
non-emptiness requirement). -/
theorem searchGo_root_append_sub {n : TrieNode} (hn : Hier n)
    {q : List Char} (hq : q ≠ []) (e : List Char) :
    ∀ i ∈ searchGo (q ++ e) n, i ∈ searchGo q n := by
  cases q with
  | nil => exact absurd rfl hq
  | cons c q' =>
    intro i hi
    simp only [List.cons_append, searchGo] at hi ⊢
    cases hf : findChild n.children c with
    | none => rw [hf] at hi; simp at hi
    | some child =>
      rw [hf] at hi
      exact searchGo_append_sub q' e child (hn c child hf) i hi

/-- Decomposition distributes over concatenation. -/
theorem concatMapChar_append (f : Char → List Char) :
    ∀ (u v : List Char), concatMapChar f (u ++ v) = concatMapChar f u ++ concatMapChar f v := by
  intro u v
  induction u with
  | nil => rfl
  | cons c r ih =>
    simp only [List.cons_append, concatMapChar, List.append_eq, ih, List.append_assoc]

/-- Left-stripping erases exactly the all-whitespace strings. -/
theorem dropWhile_ws_eq_nil_iff :
    ∀ {l : List Char}, l.dropWhile isWsChar = [] ↔ ∀ c ∈ l, isWsChar c = true := by
  intro l
  induction l with
  | nil => simp
  | cons c r ih =>
    by_cases hc : isWsChar c = true
    · rw [List.dropWhile_cons_of_pos hc]
      constructor
      · intro h x hx
        rcases List.mem_cons.mp hx with rfl | hx
        · exact hc
        · exact ih.mp h x hx
      · intro h
        exact ih.mpr (fun x hx => h x (List.mem_cons_of_mem _ hx))
    · rw [List.dropWhile_cons_of_neg (by simp [hc])]
      constructor
      · intro h
        exact absurd h (by simp)
      · intro h
        exact absurd (h c (List.mem_cons_self _ _)) hc

/-- Left-stripping a concatenation whose head is not all whitespace stops
inside the head. -/
theorem dropWhile_ws_append_of_ne {X : List Char}
    (hX : X.dropWhile isWsChar ≠ []) (v : List Char) :
    (X ++ v).dropWhile isWsChar = X.dropWhile isWsChar ++ v := by
  induction X with
  | nil => exact absurd rfl hX
  | cons c r ih =>
    by_cases hc : isWsChar c = true
    · have hX' : r.dropWhile isWsChar ≠ [] := by
        rwa [List.dropWhile_cons_of_pos hc] at hX
      rw [List.cons_append, List.dropWhile_cons_of_pos hc,
        List.dropWhile_cons_of_pos hc]
      exact ih hX'
    · rw [List.cons_append, List.dropWhile_cons_of_neg (by simp [hc]),
        List.dropWhile_cons_of_neg (by simp [hc]), List.cons_append]

/-- Right-stripping swallows an all-whitespace tail. -/
theorem rdropWs_append_all_ws {v : List Char}
    (hv : ∀ c ∈ v, isWsChar c = true) :
    ∀ (X : List Char), rdropWs (X ++ v) = rdropWs X := by
  intro X
  induction X with
  | nil =>
    rw [List.nil_append]
    exact rdropWs_eq_nil_iff.mpr hv
  | cons c r ih =>
    rw [List.cons_append]
    exact rdropWs_cons_congr c ih

/-- Right-stripping a concatenation whose tail does not vanish stops
inside the tail. -/
theorem rdropWs_append_of_ne {v : List Char} (hv : rdropWs v ≠ []) :
    ∀ (X : List Char), rdropWs (X ++ v) = X ++ rdropWs v := by
  intro X
  induction X with
  | nil => rfl
  | cons c r ih =>
    rw [List.cons_append, rdropWs_cons_of_ne, ih, List.cons_append]
    rw [ih]
    intro ⟨h1, _⟩
    exact hv (by
      rcases List.append_eq_nil.mp h1 with ⟨_, h⟩
      exact h)

/-- Collapsing is prefix-monotone: the collapse of an extension extends the
collapse. -/
theorem collapseGo_append_ext :
    ∀ (x : List Char) (b : Bool) (y : List Char),
      ∃ ext, collapseGo b (x ++ y) = collapseGo b x ++ ext := by
  intro x
  induction x with
  | nil => intro b y; exact ⟨collapseGo b y, rfl⟩
  | cons c r ih =>
    intro b y
    by_cases hc : isWsChar c = true
    · cases b with
      | true =>
        obtain ⟨ext, hext⟩ := ih true y
        exact ⟨ext, by rw [List.cons_append, collapseGo_cons_ws_true hc,
          collapseGo_cons_ws_true hc, hext]⟩
      | false =>
        obtain ⟨ext, hext⟩ := ih true y
        exact ⟨ext, by rw [List.cons_append, collapseGo_cons_ws_false hc,
          collapseGo_cons_ws_false hc, hext, List.cons_append]⟩
    · obtain ⟨ext, hext⟩ := ih false y
      exact ⟨ext, by rw [List.cons_append, collapseGo_cons_nonws hc,
        collapseGo_cons_nonws hc, hext, List.cons_append]⟩

/-- The staged normalization tail (strip, punctuation filter, collapse) is
prefix-monotone. -/
theorem strip_collapse_filter_append_ext (xu xv : List Char) :
    ∃ ext, collapseWs ((stripWs (xu ++ xv)).filter isKeptChar) =
      collapseWs ((stripWs xu).filter isKeptChar) ++ ext := by
  by_cases hu : ∀ c ∈ xu, isWsChar c = true
  · have h1 : xu.dropWhile isWsChar = [] := dropWhile_ws_eq_nil_iff.mpr hu
    have h2 : stripWs xu = [] := by rw [stripWs, h1]; rfl
    rw [h2]
    exact ⟨_, rfl⟩
  · have hDne : xu.dropWhile isWsChar ≠ [] := fun h => hu (dropWhile_ws_eq_nil_iff.mp h)
    have hDL : (xu ++ xv).dropWhile isWsChar = xu.dropWhile isWsChar ++ xv :=
      dropWhile_ws_append_of_ne hDne xv
    by_cases hv : ∀ c ∈ xv, isWsChar c = true
    · have hstr : stripWs (xu ++ xv) = stripWs xu := by
        rw [stripWs, hDL, rdropWs_append_all_ws hv]
        rfl
      rw [hstr]
      exact ⟨[], by rw [List.append_nil]⟩
    · have hvne : rdropWs xv ≠ [] := fun h => hv (rdropWs_eq_nil_iff.mp h)
      have hstr : stripWs (xu ++ xv) = xu.dropWhile isWsChar ++ rdropWs xv := by
        rw [stripWs, hDL, rdropWs_append_of_ne hvne]
      obtain ⟨w, hw, hwws⟩ := rdropWs_struct (xu.dropWhile isWsChar)
      have hfil : (xu.dropWhile isWsChar ++ rdropWs xv).filter isKeptChar =
          (stripWs xu).filter isKeptChar ++ (w ++ (rdropWs xv).filter isKeptChar) := by
        conv_lhs => rw [hw]
        rw [List.append_assoc, List.filter_append, List.filter_append,
          List.filter_eq_self.mpr (fun x hx => isKeptChar_of_ws (hwws x hx))]
        rfl
      obtain ⟨ext, hext⟩ := collapseGo_append_ext ((stripWs xu).filter isKeptChar)
        false (w ++ (rdropWs xv).filter isKeptChar)
      refine ⟨ext, ?_⟩
      rw [hstr, hfil]
      exact hext

/-- Normalization of an extension extends the normalization (up to a
suffix): the key of a raw prefix is a prefix of the key of the raw
string. -/
theorem normalizeText_append_ext (u v : List Char) :
    ∃ ext, normalizeText (u ++ v) = normalizeText u ++ ext := by
  have hstage :
      (((concatMapChar decomposeChar (u ++ v)).filter
        (fun c => !isCombiningChar c)).map toLowerChar) =
      (((concatMapChar decomposeChar u).filter
        (fun c => !isCombiningChar c)).map toLowerChar) ++
      (((concatMapChar decomposeChar v).filter
        (fun c => !isCombiningChar c)).map toLowerChar) := by
    rw [concatMapChar_append, List.filter_append, List.map_append]
  simp only [normalizeText]
  rw [hstage]
  exact strip_collapse_filter_append_ext _ _

/-- C8 counterexample.  Prefix monotonicity fails for the empty prefix: in
the reachable index holding record 1 (title "a"), the query for the strict
prefix "" returns the root's identifier set — empty, since identifiers are
only stored below the root for non-empty keys — while the query for "a"
returns {1}; the former is no superset of the latter. -/
theorem c8_counterexample :
    Reachable stAdded ∧
    ([] : List Char) ≠ ['a'] ∧
    ¬ (∀ i ∈ searchInTrie stAdded.root ['a'], i ∈ searchInTrie stAdded.root []) := by
  refine ⟨Reachable.add _ _ Reachable.empty, by decide, by decide⟩

/-- C8 (amended).  Prefix monotonicity holds on every reachable state and
every store for prefixes whose normalized form is non-empty: if `p1` is a
(possibly strict) prefix of `p2 = p1 ++ ext` and `p1` does not normalize to
the empty string, the identifier set answered for `p2` is contained in the
one answered for `p1`.  (The only failures are queries normalizing to "",
which are answered by the root's set.) -/
theorem c8_query_monotone (st : AnimeTrie) (hst : Reachable st)
    (p1 ext : List Char) (hne : normalizeText p1 ≠ []) :
    (∀ i ∈ searchInTrie st.root (p1 ++ ext), i ∈ searchInTrie st.root p1) ∧
    (∀ i ∈ searchInTrie st.genreTrie (p1 ++ ext), i ∈ searchInTrie st.genreTrie p1) ∧
    (∀ i ∈ searchInTrie st.studioTrie (p1 ++ ext), i ∈ searchInTrie st.studioTrie p1) := by
  obtain ⟨hr, hg, hs⟩ := reachable_Hier hst
  obtain ⟨e2, he2⟩ := normalizeText_append_ext p1 ext
  refine ⟨?_, ?_, ?_⟩
  · intro i hi
    simp only [searchInTrie] at hi ⊢
    rw [he2] at hi
    exact searchGo_root_append_sub hr hne e2 i hi
  · intro i hi
    simp only [searchInTrie] at hi ⊢
    rw [he2] at hi
    exact searchGo_root_append_sub hg hne e2 i hi
  · intro i hi
    simp only [searchInTrie] at hi ⊢
    rw [he2] at hi
    exact searchGo_root_append_sub hs hne e2 i hi

/-- C8 witness: the monotonicity statement instantiated on the reachable
one-record index, with prefix "a" of "ab". -/
theorem c8_query_monotone_witness :
    normalizeText ['a'] ≠ [] ∧
    ((∀ i ∈ searchInTrie stAdded.root (['a'] ++ ['b']),
        i ∈ searchInTrie stAdded.root ['a']) ∧
     (∀ i ∈ searchInTrie stAdded.genreTrie (['a'] ++ ['b']),
        i ∈ searchInTrie stAdded.genreTrie ['a']) ∧
     (∀ i ∈ searchInTrie stAdded.studioTrie (['a'] ++ ['b']),
        i ∈ searchInTrie stAdded.studioTrie ['a'])) :=
  ⟨by decide, c8_query_monotone stAdded (Reachable.add _ _ Reachable.empty)
    ['a'] ['b'] (by decide)⟩
